import Mathlib

/-!
Verification of the chess engine of a React chess game.

This file gives a shallow embedding of the engine's core
(`src/models/types.ts`, `src/utils/gameUtils.ts` and the AI utilities):
the board data model, pseudo-legal move generation, check detection,
legality filtering, terminal-state classification, static evaluation and
minimax search with alpha-beta pruning, together with theorems about the
claims of the specification.

Modelling conventions:
- the mutable 8x8 array of `Piece | null` becomes a total function
  `Pos → Option Piece`; an array write becomes a functional update;
- JavaScript numbers used as board indices become `Int` (offsets can be
  negative before the `isValidPosition` guard);
- `±Infinity` in the search becomes an explicit extended-integer type
  `XInt`;
- a `while` ray-cast loop becomes fuel-based recursion with fuel 8, which
  is exact: no ray of a nonzero direction stays inside the 8x8 board for
  more than 8 consecutive steps, and the loop stops at the first invalid
  square exactly as the source does.
-/

/-- Piece kinds, from the `PieceType` enum of `types.ts`. -/
inductive PieceType where
  | king
  | queen
  | rook
  | bishop
  | knight
  | pawn
deriving DecidableEq, Repr

/-- Piece colors, from the `PieceColor` enum of `types.ts`. -/
inductive Color where
  | white
  | black
deriving DecidableEq, Repr

/-- The opponent color, as computed by the ternary in `isKingInCheck`. -/
def opponentOf : Color → Color
  | Color.white => Color.black
  | Color.black => Color.white

/-- A piece, from the `Piece` interface of `types.ts` (the optional
`specialAbilities` array is never consulted by the engine core). -/
structure Piece where
  type : PieceType
  color : Color
  hasMoved : Bool
deriving DecidableEq, Repr

/-- A board coordinate, from the `Position` interface of `types.ts`.
Coordinates are integers; values outside `[0,8)` are rejected by
`isValidPosition`. -/
structure Pos where
  row : Int
  col : Int
deriving DecidableEq, Repr

/-- Move kinds, from the `MoveType` enum of `types.ts`. -/
inductive MoveType where
  | normal
  | capture
  | castleKingside
  | castleQueenside
  | enPassant
  | promotion
  | captureAndPromotion
  | specialAbility
deriving DecidableEq, Repr

/-- A move, from the `Move` interface of `types.ts` (`from` is renamed to
`fromPos` and `to` to `toPos` because `from` is a Lean keyword). -/
structure Move where
  fromPos : Pos
  toPos : Pos
  type : MoveType
  piece : Piece
  capturedPiece : Option Piece := none
  promotionPieceType : Option PieceType := none
  castlingRookFrom : Option Pos := none
  castlingRookTo : Option Pos := none
  enPassantCapturePos : Option Pos := none
deriving DecidableEq, Repr

/-- Castling rights of one color: `{ kingSide, queenSide }`. -/
structure SideRights where
  kingSide : Bool
  queenSide : Bool
deriving DecidableEq, Repr

/-- Castling rights record indexed by color, from the
`{ [color]: { kingSide, queenSide } }` objects of the source. -/
structure CastlingRights where
  whiteRights : SideRights
  blackRights : SideRights
deriving DecidableEq, Repr

/-- Indexing `castlingRights[color]`. -/
def rightsFor (cr : CastlingRights) : Color → SideRights
  | Color.white => cr.whiteRights
  | Color.black => cr.blackRights

/-- The default castling-rights argument of the source: every right
granted. -/
def fullCastlingRights : CastlingRights := ⟨⟨true, true⟩, ⟨true, true⟩⟩

/-- The board: the source's `(Piece | null)[][]` as a total function. -/
abbrev Board := Pos → Option Piece

/-- The array write `board[q.row][q.col] = v` as a functional update. -/
def Board.set (b : Board) (q : Pos) (v : Option Piece) : Board :=
  fun p => if p = q then v else b p

/-- `isValidPosition` from `boardUtils.ts` (`BOARD_SIZE = 8`). -/
def isValidPosition (p : Pos) : Bool :=
  decide (0 ≤ p.row ∧ p.row < 8 ∧ 0 ≤ p.col ∧ p.col < 8)

/-- The 64 squares in the row-major order of the source's nested
`for (row) for (col)` loops. -/
def squaresRM : List Pos :=
  (List.range 8).flatMap fun r => (List.range 8).map fun c => ⟨(r : Int), (c : Int)⟩

/-- The `DIRECTIONS` constants of `types.ts`. -/
def dirNorth : Pos := ⟨-1, 0⟩

def dirNorthEast : Pos := ⟨-1, 1⟩

def dirEast : Pos := ⟨0, 1⟩

def dirSouthEast : Pos := ⟨1, 1⟩

def dirSouth : Pos := ⟨1, 0⟩

def dirSouthWest : Pos := ⟨1, -1⟩

def dirWest : Pos := ⟨0, -1⟩

def dirNorthWest : Pos := ⟨-1, -1⟩

/-- The `KNIGHT_MOVES` offsets of `types.ts`, in source order. -/
def knightOffsets : List Pos :=
  [⟨-2, -1⟩, ⟨-2, 1⟩, ⟨-1, -2⟩, ⟨-1, 2⟩, ⟨1, -2⟩, ⟨1, 2⟩, ⟨2, -1⟩, ⟨2, 1⟩]

/-- The `PIECE_VALUES` table of `types.ts`. -/
def pieceValue : PieceType → Int
  | PieceType.pawn => 100
  | PieceType.knight => 320
  | PieceType.bishop => 330
  | PieceType.rook => 500
  | PieceType.queen => 900
  | PieceType.king => 20000

/-- The pawn's forward direction: `-1` for white, `1` for black. -/
def pawnDir (c : Color) : Int := if c = Color.white then -1 else 1

/-- `addPawnPromotionMoves` from `gameUtils.ts`: one move per promotion
choice, in the source order queen, rook, bishop, knight. -/
def addPawnPromotionMoves (fromP toP : Pos) (pc : Piece) (captured : Option Piece) :
    List Move :=
  [PieceType.queen, PieceType.rook, PieceType.bishop, PieceType.knight].map fun pt =>
    { fromPos := fromP, toPos := toP,
      type := if captured.isSome then MoveType.captureAndPromotion else MoveType.promotion,
      piece := pc, capturedPiece := captured, promotionPieceType := some pt }

/-- The forward (non-capturing) part of `getPawnMoves`: one square ahead,
promoting on the farthest rank, plus the two-square advance from the
starting rank (nested, as in the source, inside the one-ahead-empty
test). -/
def pawnForwardMoves (b : Board) (p : Pos) (pc : Piece) : List Move :=
  let dir := pawnDir pc.color
  let oneForward : Pos := ⟨p.row + dir, p.col⟩
  if isValidPosition oneForward && (b oneForward).isNone then
    let first :=
      if (pc.color = Color.white ∧ oneForward.row = 0) ∨
          (pc.color = Color.black ∧ oneForward.row = 7) then
        addPawnPromotionMoves p oneForward pc none
      else
        [{ fromPos := p, toPos := oneForward, type := MoveType.normal, piece := pc }]
    let second :=
      if (pc.color = Color.white ∧ p.row = 6) ∨ (pc.color = Color.black ∧ p.row = 1) then
        let twoForward : Pos := ⟨p.row + 2 * dir, p.col⟩
        if isValidPosition twoForward && (b twoForward).isNone then
          [{ fromPos := p, toPos := twoForward, type := MoveType.normal, piece := pc }]
        else []
      else []
    first ++ second
  else []

/-- The body of the capture loop of `getPawnMoves` for one diagonal
target square: a regular capture (promoting on the farthest rank)
followed by the en-passant capture, in source push order. -/
def pawnCaptureAt (b : Board) (p : Pos) (pc : Piece) (ep : Option Pos) (cm : Pos) :
    List Move :=
  if isValidPosition cm then
    let regular :=
      match b cm with
      | some target =>
        if target.color ≠ pc.color then
          if (pc.color = Color.white ∧ cm.row = 0) ∨
              (pc.color = Color.black ∧ cm.row = 7) then
            addPawnPromotionMoves p cm pc (some target)
          else
            [{ fromPos := p, toPos := cm, type := MoveType.capture, piece := pc,
               capturedPiece := some target }]
        else []
      | none => []
    let epMoves :=
      match ep with
      | some t =>
        if cm.row = t.row ∧ cm.col = t.col then
          let capturedPawnPos : Pos := ⟨p.row, t.col⟩
          match b capturedPawnPos with
          | some cp =>
            if cp.type = PieceType.pawn ∧ cp.color ≠ pc.color then
              [{ fromPos := p, toPos := cm, type := MoveType.enPassant, piece := pc,
                 capturedPiece := some cp, enPassantCapturePos := some capturedPawnPos }]
            else []
          | none => []
        else []
      | none => []
    regular ++ epMoves
  else []

/-- The capture part of `getPawnMoves`: the two diagonal targets, in
source order left then right. -/
def pawnCaptureMoves (b : Board) (p : Pos) (pc : Piece) (ep : Option Pos) : List Move :=
  ([⟨p.row + pawnDir pc.color, p.col - 1⟩, ⟨p.row + pawnDir pc.color, p.col + 1⟩] :
      List Pos).flatMap
    (pawnCaptureAt b p pc ep)

/-- `getPawnMoves` from `gameUtils.ts`: forward moves then captures. -/
def getPawnMoves (b : Board) (p : Pos) (pc : Piece) (ep : Option Pos) : List Move :=
  pawnForwardMoves b p pc ++ pawnCaptureMoves b p pc ep

/-- `getKnightMoves` from `gameUtils.ts`. -/
def getKnightMoves (b : Board) (p : Pos) (pc : Piece) : List Move :=
  knightOffsets.flatMap fun off =>
    let np : Pos := ⟨p.row + off.row, p.col + off.col⟩
    if isValidPosition np then
      match b np with
      | none => [{ fromPos := p, toPos := np, type := MoveType.normal, piece := pc }]
      | some target =>
        if target.color ≠ pc.color then
          [{ fromPos := p, toPos := np, type := MoveType.capture, piece := pc,
             capturedPiece := some target }]
        else []
    else []

/-- One ray of `getLinearMoves`: step until the board edge, a friendly
piece (stop, exclude) or an enemy piece (capture, stop). Fuel 8 is exact
for every ray of a nonzero direction on an 8x8 board. -/
def rayGo (b : Board) (origin : Pos) (pc : Piece) (d : Pos) : Nat → Pos → List Move
  | 0, _ => []
  | fuel + 1, cur =>
    if isValidPosition cur then
      match b cur with
      | none =>
        { fromPos := origin, toPos := cur, type := MoveType.normal, piece := pc } ::
          rayGo b origin pc d fuel ⟨cur.row + d.row, cur.col + d.col⟩
      | some target =>
        if target.color ≠ pc.color then
          [{ fromPos := origin, toPos := cur, type := MoveType.capture, piece := pc,
             capturedPiece := some target }]
        else []
    else []

/-- `getLinearMoves` from `gameUtils.ts`. -/
def getLinearMoves (b : Board) (p : Pos) (pc : Piece) (dirs : List Pos) : List Move :=
  dirs.flatMap fun d => rayGo b p pc d 8 ⟨p.row + d.row, p.col + d.col⟩

/-- `getBishopMoves`: the four diagonal directions, in source order. -/
def getBishopMoves (b : Board) (p : Pos) (pc : Piece) : List Move :=
  getLinearMoves b p pc [dirNorthEast, dirSouthEast, dirSouthWest, dirNorthWest]

/-- `getRookMoves`: the four straight directions, in source order. -/
def getRookMoves (b : Board) (p : Pos) (pc : Piece) : List Move :=
  getLinearMoves b p pc [dirNorth, dirEast, dirSouth, dirWest]

/-- `getQueenMoves`: all eight directions, in source order. -/
def getQueenMoves (b : Board) (p : Pos) (pc : Piece) : List Move :=
  getLinearMoves b p pc
    [dirNorth, dirNorthEast, dirEast, dirSouthEast, dirSouth, dirSouthWest, dirWest,
      dirNorthWest]

/-- `getKingMoves` from `gameUtils.ts`: the eight adjacent squares, then
kingside castling, then queenside castling. Attack safety is not checked
here; that is deferred to `filterLegalMoves`. -/
def getKingMoves (b : Board) (p : Pos) (pc : Piece) (cr : CastlingRights) : List Move :=
  let basic :=
    ([dirNorth, dirNorthEast, dirEast, dirSouthEast, dirSouth, dirSouthWest, dirWest,
        dirNorthWest] : List Pos).flatMap fun d =>
      let np : Pos := ⟨p.row + d.row, p.col + d.col⟩
      if isValidPosition np then
        match b np with
        | none => [{ fromPos := p, toPos := np, type := MoveType.normal, piece := pc }]
        | some target =>
          if target.color ≠ pc.color then
            [{ fromPos := p, toPos := np, type := MoveType.capture, piece := pc,
               capturedPiece := some target }]
          else []
      else []
  let castles :=
    if pc.hasMoved = false then
      let kingRank : Int := if pc.color = Color.white then 7 else 0
      let ks :=
        if (rightsFor cr pc.color).kingSide then
          if (b ⟨kingRank, 5⟩).isNone && (b ⟨kingRank, 6⟩).isNone then
            match b ⟨kingRank, 7⟩ with
            | some rk =>
              if rk.type = PieceType.rook ∧ rk.color = pc.color ∧ rk.hasMoved = false then
                [{ fromPos := p, toPos := ⟨kingRank, 6⟩, type := MoveType.castleKingside,
                   piece := pc, castlingRookFrom := some ⟨kingRank, 7⟩,
                   castlingRookTo := some ⟨kingRank, 5⟩ }]
              else []
            | none => []
          else []
        else []
      let qs :=
        if (rightsFor cr pc.color).queenSide then
          if (b ⟨kingRank, 1⟩).isNone && (b ⟨kingRank, 2⟩).isNone &&
              (b ⟨kingRank, 3⟩).isNone then
            match b ⟨kingRank, 0⟩ with
            | some rk =>
              if rk.type = PieceType.rook ∧ rk.color = pc.color ∧ rk.hasMoved = false then
                [{ fromPos := p, toPos := ⟨kingRank, 2⟩, type := MoveType.castleQueenside,
                   piece := pc, castlingRookFrom := some ⟨kingRank, 0⟩,
                   castlingRookTo := some ⟨kingRank, 3⟩ }]
              else []
            | none => []
          else []
        else []
      ks ++ qs
    else []
  basic ++ castles

/-- `getPossibleMoves` from `gameUtils.ts`: dispatch on the piece kind at
the given square; an empty square yields no moves. -/
def getPossibleMoves (b : Board) (p : Pos) (ep : Option Pos) (cr : CastlingRights) :
    List Move :=
  match b p with
  | none => []
  | some pc =>
    match pc.type with
    | PieceType.pawn => getPawnMoves b p pc ep
    | PieceType.knight => getKnightMoves b p pc
    | PieceType.bishop => getBishopMoves b p pc
    | PieceType.rook => getRookMoves b p pc
    | PieceType.queen => getQueenMoves b p pc
    | PieceType.king => getKingMoves b p pc cr

/-- `applyMove` from `gameUtils.ts`, as a pure function on the board:
clear the origin; write the destination (the promoted piece for
promotion kinds, defaulting to a queen, else the move's piece with
`hasMoved` forced true); relocate the rook for castling kinds (the rook
is read after the destination write, as in the source); clear the
captured pawn's square for en passant. -/
def applyMove (b : Board) (m : Move) : Board :=
  let b1 := b.set m.fromPos none
  let b2 :=
    if m.type = MoveType.promotion ∨ m.type = MoveType.captureAndPromotion then
      b1.set m.toPos
        (some ⟨m.promotionPieceType.getD PieceType.queen, m.piece.color, true⟩)
    else
      b1.set m.toPos (some { m.piece with hasMoved := true })
  let b3 :=
    if m.type = MoveType.castleKingside ∨ m.type = MoveType.castleQueenside then
      match m.castlingRookFrom, m.castlingRookTo with
      | some rf, some rt =>
        let rook := b2 rf
        let b2a := b2.set rf none
        match rook with
        | some rk => b2a.set rt (some { rk with hasMoved := true })
        | none => b2a
      | _, _ => b2
    else b2
  if m.type = MoveType.enPassant then
    match m.enPassantCapturePos with
    | some epp => b3.set epp none
    | none => b3
  else b3

/-- The king-locating scan of `isKingInCheck`: first king of the color in
row-major order (the source breaks out of both loops on the first hit). -/
def findKingPos (b : Board) (c : Color) : Option Pos :=
  squaresRM.find? fun p =>
    match b p with
    | some pc => decide (pc.type = PieceType.king ∧ pc.color = c)
    | none => false

/-- `isKingInCheck` from `gameUtils.ts`: false when no king of the color
is found; otherwise true iff some opposing piece has a pseudo-legal move
(generated with the default en-passant and castling-rights arguments)
onto the king's square. -/
def isKingInCheck (b : Board) (c : Color) : Bool :=
  match findKingPos b c with
  | none => false
  | some kp =>
    squaresRM.any fun p =>
      match b p with
      | some pc =>
        decide (pc.color = opponentOf c) &&
          (getPossibleMoves b p none fullCastlingRights).any fun mv => decide (mv.toPos = kp)
      | none => false

/-- `filterLegalMoves` from `gameUtils.ts`: keep a candidate move iff the
mover's king is not in check on the board obtained by applying it to a
copy of the board. -/
def filterLegalMoves (b : Board) (ms : List Move) (c : Color) : List Move :=
  ms.filter fun m => !(isKingInCheck (applyMove b m) c)

/-- The scan shared by `isCheckmate` and `isStalemate`: does some piece
of the color have a legal move (pseudo-legal moves generated with the
default en-passant and castling-rights arguments)? -/
def hasAnyLegalMove (b : Board) (c : Color) : Bool :=
  squaresRM.any fun p =>
    match b p with
    | some pc =>
      if pc.color = c then
        !(filterLegalMoves b (getPossibleMoves b p none fullCastlingRights) c).isEmpty
      else false
    | none => false

/-- `isCheckmate` from `gameUtils.ts`: in check and no legal move. -/
def isCheckmate (b : Board) (c : Color) : Bool :=
  isKingInCheck b c && !(hasAnyLegalMove b c)

/-- `isStalemate` from `gameUtils.ts`: not in check and no legal move. -/
def isStalemate (b : Board) (c : Color) : Bool :=
  !(isKingInCheck b c) && !(hasAnyLegalMove b c)

/-- The union, over the squares in row-major order, of the legal moves of
the pieces of one color — the move-collecting loop of `findBestMove` and
`minimax`, and (with the default arguments) the union tested by
`isCheckmate`/`isStalemate`. -/
def allLegalMovesFor (b : Board) (c : Color) (ep : Option Pos) (cr : CastlingRights) :
    List Move :=
  squaresRM.flatMap fun p =>
    match b p with
    | some pc =>
      if pc.color = c then filterLegalMoves b (getPossibleMoves b p ep cr) c else []
    | none => []

/-- Indexing `table[row][col]` of a piece-square table; all source
accesses are within `[0,8) × [0,8)`. -/
def tableAt (t : List (List Int)) (r c : Int) : Int :=
  ((t.getD r.toNat []).getD c.toNat 0)

/-- The pawn piece-square table of `PIECE_SQUARE_TABLES`. -/
def pawnTable : List (List Int) :=
  [[0, 0, 0, 0, 0, 0, 0, 0],
   [50, 50, 50, 50, 50, 50, 50, 50],
   [10, 10, 20, 30, 30, 20, 10, 10],
   [5, 5, 10, 25, 25, 10, 5, 5],
   [0, 0, 0, 20, 20, 0, 0, 0],
   [5, -5, -10, 0, 0, -10, -5, 5],
   [5, 10, 10, -20, -20, 10, 10, 5],
   [0, 0, 0, 0, 0, 0, 0, 0]]

/-- The knight piece-square table of `PIECE_SQUARE_TABLES`. -/
def knightTable : List (List Int) :=
  [[-50, -40, -30, -30, -30, -30, -40, -50],
   [-40, -20, 0, 0, 0, 0, -20, -40],
   [-30, 0, 10, 15, 15, 10, 0, -30],
   [-30, 5, 15, 20, 20, 15, 5, -30],
   [-30, 0, 15, 20, 20, 15, 0, -30],
   [-30, 5, 10, 15, 15, 10, 5, -30],
   [-40, -20, 0, 5, 5, 0, -20, -40],
   [-50, -40, -30, -30, -30, -30, -40, -50]]

/-- The bishop piece-square table of `PIECE_SQUARE_TABLES`. -/
def bishopTable : List (List Int) :=
  [[-20, -10, -10, -10, -10, -10, -10, -20],
   [-10, 0, 0, 0, 0, 0, 0, -10],
   [-10, 0, 10, 10, 10, 10, 0, -10],
   [-10, 5, 5, 10, 10, 5, 5, -10],
   [-10, 0, 5, 10, 10, 5, 0, -10],
   [-10, 5, 5, 5, 5, 5, 5, -10],
   [-10, 0, 5, 0, 0, 5, 0, -10],
   [-20, -10, -10, -10, -10, -10, -10, -20]]

/-- The rook piece-square table of `PIECE_SQUARE_TABLES`. -/
def rookTable : List (List Int) :=
  [[0, 0, 0, 0, 0, 0, 0, 0],
   [5, 10, 10, 10, 10, 10, 10, 5],
   [-5, 0, 0, 0, 0, 0, 0, -5],
   [-5, 0, 0, 0, 0, 0, 0, -5],
   [-5, 0, 0, 0, 0, 0, 0, -5],
   [-5, 0, 0, 0, 0, 0, 0, -5],
   [-5, 0, 0, 0, 0, 0, 0, -5],
   [0, 0, 0, 5, 5, 0, 0, 0]]

/-- The queen piece-square table of `PIECE_SQUARE_TABLES`. -/
def queenTable : List (List Int) :=
  [[-20, -10, -10, -5, -5, -10, -10, -20],
   [-10, 0, 0, 0, 0, 0, 0, -10],
   [-10, 0, 5, 5, 5, 5, 0, -10],
   [-5, 0, 5, 5, 5, 5, 0, -5],
   [0, 0, 5, 5, 5, 5, 0, -5],
   [-10, 5, 5, 5, 5, 5, 0, -10],
   [-10, 0, 5, 0, 0, 0, 0, -10],
   [-20, -10, -10, -5, -5, -10, -10, -20]]

/-- The standard king piece-square table of `PIECE_SQUARE_TABLES`. -/
def kingTable : List (List Int) :=
  [[-30, -40, -40, -50, -50, -40, -40, -30],
   [-30, -40, -40, -50, -50, -40, -40, -30],
   [-30, -40, -40, -50, -50, -40, -40, -30],
   [-30, -40, -40, -50, -50, -40, -40, -30],
   [-20, -30, -30, -40, -40, -30, -30, -20],
   [-10, -20, -20, -20, -20, -20, -20, -10],
   [20, 20, 0, 0, 0, 0, 20, 20],
   [20, 30, 10, 0, 0, 10, 30, 20]]

/-- The endgame king table `PIECE_SQUARE_TABLES.kingEndgame`. -/
def kingEndgameTable : List (List Int) :=
  [[-50, -40, -30, -20, -20, -30, -40, -50],
   [-30, -20, -10, 0, 0, -10, -20, -30],
   [-30, -10, 20, 30, 30, 20, -10, -30],
   [-30, -10, 30, 40, 40, 30, -10, -30],
   [-30, -10, 30, 40, 40, 30, -10, -30],
   [-30, -10, 20, 30, 30, 20, -10, -30],
   [-30, -30, 0, 0, 0, 0, -30, -30],
   [-50, -30, -30, -30, -30, -30, -30, -50]]

/-- `PIECE_SQUARE_TABLES[type]` for the six standard entries. -/
def pst : PieceType → List (List Int)
  | PieceType.pawn => pawnTable
  | PieceType.knight => knightTable
  | PieceType.bishop => bishopTable
  | PieceType.rook => rookTable
  | PieceType.queen => queenTable
  | PieceType.king => kingTable

/-- `isEndgamePhase` from the AI utilities: both sides have zero queens,
or both sides have at most 4 pieces in total. -/
def isEndgamePhase (b : Board) : Bool :=
  let counts :=
    squaresRM.foldl
      (fun (acc : Nat × Nat × Nat × Nat) p =>
        match b p with
        | some pc =>
          match pc.color with
          | Color.white =>
            (acc.1 + (if pc.type = PieceType.queen then 1 else 0), acc.2.1,
              acc.2.2.1 + 1, acc.2.2.2)
          | Color.black =>
            (acc.1, acc.2.1 + (if pc.type = PieceType.queen then 1 else 0),
              acc.2.2.1, acc.2.2.2 + 1)
        | none => acc)
      (0, 0, 0, 0)
  decide (counts.1 = 0 ∧ counts.2.1 = 0) ||
    decide (counts.2.2.1 ≤ 4 ∧ counts.2.2.2 ≤ 4)

/-- `evaluateMaterial`: signed sum of piece values, black positive. -/
def evaluateMaterial (b : Board) : Int :=
  squaresRM.foldl
    (fun score p =>
      match b p with
      | some pc =>
        if pc.color = Color.black then score + pieceValue pc.type
        else score - pieceValue pc.type
      | none => score)
    0

/-- `evaluatePositions` from the AI utilities. Note: the source first
selects between the standard and endgame king tables at `[row][col]`,
but that value is then unconditionally overwritten by the lookup in the
standard table at the color-adjusted coordinates; the dead first
assignment is kept here as an unused binding, exactly as it has no
effect in the source. -/
def evaluatePositions (b : Board) : Int :=
  squaresRM.foldl
    (fun score p =>
      match b p with
      | some pc =>
        let _deadFirstLookup : Int :=
          if pc.type = PieceType.king then
            if isEndgamePhase b then tableAt kingEndgameTable p.row p.col
            else tableAt (pst pc.type) p.row p.col
          else tableAt (pst pc.type) p.row p.col
        let adjustedRow : Int := if pc.color = Color.black then p.row else 7 - p.row
        let adjustedCol : Int := if pc.color = Color.black then p.col else 7 - p.col
        let posValue : Int := tableAt (pst pc.type) adjustedRow adjustedCol
        if pc.color = Color.black then score + posValue else score - posValue
      | none => score)
    0

/-- Follows the claim's words (specification 4.6): like
`evaluatePositions`, but the king is actually scored with the endgame
table when `isEndgamePhase` holds, at the same color-adjusted
coordinates used for every other lookup. -/
def evaluatePositionsSpec (b : Board) : Int :=
  squaresRM.foldl
    (fun score p =>
      match b p with
      | some pc =>
        let adjustedRow : Int := if pc.color = Color.black then p.row else 7 - p.row
        let adjustedCol : Int := if pc.color = Color.black then p.col else 7 - p.col
        let posValue : Int :=
          if pc.type = PieceType.king ∧ isEndgamePhase b then
            tableAt kingEndgameTable adjustedRow adjustedCol
          else tableAt (pst pc.type) adjustedRow adjustedCol
        if pc.color = Color.black then score + posValue else score - posValue
      | none => score)
    0

/-- The king scan of `evaluateKingSafety`: the source loops over every
square without breaking, so the last king of the color in row-major
order wins. -/
def lastKingPos (b : Board) (c : Color) : Option Pos :=
  squaresRM.foldl
    (fun acc p =>
      match b p with
      | some pc =>
        if pc.type = PieceType.king ∧ pc.color = c then some p else acc
      | none => acc)
    none

/-- `evaluatePawnShield`: +10 per friendly pawn on one of the three
squares diagonally/directly in front of the king. -/
def evaluatePawnShield (b : Board) (kingPos : Pos) (kingColor : Color) : Int :=
  let d := if kingColor = Color.white then (-1 : Int) else 1
  ([⟨kingPos.row + d, kingPos.col - 1⟩, ⟨kingPos.row + d, kingPos.col⟩,
      ⟨kingPos.row + d, kingPos.col + 1⟩] : List Pos).foldl
    (fun score pos =>
      if 0 ≤ pos.row ∧ pos.row < 8 ∧ 0 ≤ pos.col ∧ pos.col < 8 then
        match b pos with
        | some pc =>
          if pc.type = PieceType.pawn ∧ pc.color = kingColor then score + 10 else score
        | none => score
      else score)
    0

/-- `evaluateKingSafety`: 0 when either king is missing; otherwise ±50
for a king in check plus the pawn-shield terms. -/
def evaluateKingSafety (b : Board) : Int :=
  match lastKingPos b Color.white, lastKingPos b Color.black with
  | some wk, some bk =>
    (if isKingInCheck b Color.white then (50 : Int) else 0) +
      (if isKingInCheck b Color.black then (-50 : Int) else 0) +
      evaluatePawnShield b bk Color.black - evaluatePawnShield b wk Color.white
  | _, _ => 0

/-- `evaluateMobility`: ±2 per legal move of each piece, black positive
(pseudo-legal moves generated with the default arguments). -/
def evaluateMobility (b : Board) : Int :=
  let counts :=
    squaresRM.foldl
      (fun (acc : Nat × Nat) p =>
        match b p with
        | some pc =>
          let n :=
            (filterLegalMoves b (getPossibleMoves b p none fullCastlingRights)
              pc.color).length
          match pc.color with
          | Color.white => (acc.1 + n, acc.2)
          | Color.black => (acc.1, acc.2 + n)
        | none => acc)
      (0, 0)
  (counts.2 : Int) * 2 - (counts.1 : Int) * 2

/-- `evaluateBoard` from the AI utilities, black's perspective: material
and positional sums, overridden by +10000 when white is checkmated,
then -10000 when black is checkmated, then 0 when either side is
stalemated (checked in that order); otherwise king safety and mobility
are added. -/
def evaluateBoard (b : Board) : Int :=
  let score := evaluateMaterial b + evaluatePositions b
  if isCheckmate b Color.white then 10000
  else if isCheckmate b Color.black then -10000
  else if isStalemate b Color.white || isStalemate b Color.black then 0
  else score + evaluateKingSafety b + evaluateMobility b

/-- JavaScript numbers as used by the search: integers extended with
`-Infinity` and `+Infinity`. -/
inductive XInt where
  | negInf
  | fin (n : Int)
  | posInf
deriving DecidableEq, Repr

/-- The strict order `<` on `XInt`. -/
def XInt.blt : XInt → XInt → Bool
  | XInt.negInf, XInt.negInf => false
  | XInt.negInf, _ => true
  | XInt.fin _, XInt.negInf => false
  | XInt.fin a, XInt.fin b => decide (a < b)
  | XInt.fin _, XInt.posInf => true
  | XInt.posInf, _ => false

/-- The order `<=` on `XInt`, used by the pruning test `beta <= alpha`. -/
def XInt.ble (x y : XInt) : Bool := !(XInt.blt y x)

/-- `Math.max` on `XInt`. -/
def XInt.maxX (x y : XInt) : XInt := if XInt.blt x y then y else x

/-- `Math.min` on `XInt`. -/
def XInt.minX (x y : XInt) : XInt := if XInt.blt y x then y else x

/-- The maximizing loop of `minimax`: fold over the moves keeping the
running maximum and raising alpha, breaking out of the loop as soon as
`beta <= alpha`. `eval` evaluates one child at the current alpha/beta. -/
def abMaxGo (eval : Move → XInt → XInt → XInt) :
    List Move → XInt → XInt → XInt → XInt
  | [], _, _, acc => acc
  | m :: rest, alpha, beta, acc =>
    let ev := eval m alpha beta
    let acc1 := XInt.maxX acc ev
    let alpha1 := XInt.maxX alpha ev
    if XInt.ble beta alpha1 then acc1 else abMaxGo eval rest alpha1 beta acc1

/-- The minimizing loop of `minimax`, dual to `abMaxGo`. -/
def abMinGo (eval : Move → XInt → XInt → XInt) :
    List Move → XInt → XInt → XInt → XInt
  | [], _, _, acc => acc
  | m :: rest, alpha, beta, acc =>
    let ev := eval m alpha beta
    let acc1 := XInt.minX acc ev
    let beta1 := XInt.minX beta ev
    if XInt.ble beta1 alpha then acc1 else abMinGo eval rest alpha beta1 acc1

/-- `minimax` from the AI utilities. Depth is a natural number (the
source only ever calls it with a nonnegative depth, and `depth === 0`
is its first terminal test); the terminal test and the zero-legal-move
fallback both return the static evaluation, otherwise the maximizing or
minimizing alpha-beta loop runs over the legal moves of the side to move
(black when maximizing). -/
def minimax : Nat → Board → XInt → XInt → Bool → Option Pos → CastlingRights → XInt
  | 0, b, _, _, _, _, _ => XInt.fin (evaluateBoard b)
  | depth + 1, b, alpha, beta, isMax, ep, cr =>
    if isCheckmate b Color.white || isCheckmate b Color.black ||
        isStalemate b Color.white || isStalemate b Color.black then
      XInt.fin (evaluateBoard b)
    else
      let playerColor := if isMax then Color.black else Color.white
      let allMoves := allLegalMovesFor b playerColor ep cr
      if allMoves.isEmpty then XInt.fin (evaluateBoard b)
      else if isMax then
        abMaxGo (fun m a bt => minimax depth (applyMove b m) a bt false ep cr)
          allMoves alpha beta XInt.negInf
      else
        abMinGo (fun m a bt => minimax depth (applyMove b m) a bt true ep cr)
          allMoves alpha beta XInt.posInf

/-- The best-move loop of `findBestMove`: strict improvement over the
running best score (`>` for black, `<` for white) replaces the best
move. -/
def rootGo (score : Move → XInt) (isBlack : Bool) :
    List Move → XInt → Option Move → Option Move
  | [], _, best => best
  | m :: rest, bestScore, best =>
    let s := score m
    if isBlack then
      if XInt.blt bestScore s then rootGo score isBlack rest s (some m)
      else rootGo score isBlack rest bestScore best
    else
      if XInt.blt s bestScore then rootGo score isBlack rest s (some m)
      else rootGo score isBlack rest bestScore best

/-- `findBestMove` from the AI utilities: collect all legal moves of the
side to move; none yields no move; otherwise each candidate is scored by
`minimax` at `depth - 1` with a fresh `(-Infinity, +Infinity)` window and
the strictly best one is kept. -/
def findBestMove (b : Board) (depth : Nat) (isBlack : Bool) (ep : Option Pos)
    (cr : CastlingRights) : Option Move :=
  let playerColor := if isBlack then Color.black else Color.white
  let allMoves := allLegalMovesFor b playerColor ep cr
  if allMoves.isEmpty then none
  else
    rootGo
      (fun m => minimax (depth - 1) (applyMove b m) XInt.negInf XInt.posInf (!isBlack) ep cr)
      isBlack allMoves (if isBlack then XInt.negInf else XInt.posInf) none

/-- The empty board. -/
def emptyBoard : Board := fun _ => none

/-- A well-formed board (one king per color, one piece per cell) on which
both colors are simultaneously checkmated: each king is attacked by an
opposing rook along an otherwise empty line and no move of either side
resolves its own check. White: Ka1=(7,0), Re8=(0,4), Rh7=(1,7).
Black: Ka8=(0,0), Re1=(7,4), Rh2=(6,7), Pe5=(3,4). -/
def dblMateBoard : Board := fun p =>
  if p = ⟨0, 0⟩ then some ⟨PieceType.king, Color.black, true⟩
  else if p = ⟨7, 4⟩ then some ⟨PieceType.rook, Color.black, true⟩
  else if p = ⟨6, 7⟩ then some ⟨PieceType.rook, Color.black, true⟩
  else if p = ⟨3, 4⟩ then some ⟨PieceType.pawn, Color.black, true⟩
  else if p = ⟨7, 0⟩ then some ⟨PieceType.king, Color.white, true⟩
  else if p = ⟨0, 4⟩ then some ⟨PieceType.rook, Color.white, true⟩
  else if p = ⟨1, 7⟩ then some ⟨PieceType.rook, Color.white, true⟩
  else none

/-- A kings-only board: white king at (7,0), black king at (3,3). -/
def kingsOnlyBoard : Board := fun p =>
  if p = ⟨3, 3⟩ then some ⟨PieceType.king, Color.black, true⟩
  else if p = ⟨7, 0⟩ then some ⟨PieceType.king, Color.white, true⟩
  else none

/-- A board with a white pawn at (1,2), a black rook at (0,3) and a
black pawn at (1,3); with en-passant target (0,3) the white pawn's
promoting capture onto (0,3) coexists with an en-passant move to the
same square. -/
def promoEpBoard : Board := fun p =>
  if p = ⟨1, 2⟩ then some ⟨PieceType.pawn, Color.white, true⟩
  else if p = ⟨0, 3⟩ then some ⟨PieceType.rook, Color.black, true⟩
  else if p = ⟨1, 3⟩ then some ⟨PieceType.pawn, Color.black, true⟩
  else none

/-- A board with a lone white king at (0,0). -/
def loneKingBoard : Board := fun p =>
  if p = ⟨0, 0⟩ then some ⟨PieceType.king, Color.white, true⟩ else none


/-- Every square produced by the row-major scan is a valid position. -/
theorem squaresRM_valid : ∀ p ∈ squaresRM, isValidPosition p = true := by decide

/-- C2: `filterLegalMoves` keeps exactly the candidate moves whose
application leaves the mover's king out of check: a move is in the
result iff it is a candidate and `isKingInCheck` is false on the board
obtained by applying it, and each candidate's multiplicity is preserved
when it is kept and zero when it is discarded (so no other move is
discarded). -/
theorem filterLegalMoves_spec (b : Board) (ms : List Move) (c : Color) (m : Move) :
    (m ∈ filterLegalMoves b ms c ↔
      m ∈ ms ∧ isKingInCheck (applyMove b m) c = false) ∧
    (filterLegalMoves b ms c).count m =
      (if isKingInCheck (applyMove b m) c = false then ms.count m else 0) := by
  constructor
  · simp [filterLegalMoves, List.mem_filter]
  · by_cases h : isKingInCheck (applyMove b m) c = false
    · rw [if_pos h, filterLegalMoves, List.count_filter]
      simp [h]
    · rw [if_neg h, filterLegalMoves, List.count_eq_zero]
      intro hmem
      rcases List.mem_filter.mp hmem with ⟨-, hkeep⟩
      simp only [Bool.not_eq_true'] at hkeep
      exact h hkeep

/-- C9: on a board with no king of the queried color, `isKingInCheck`
returns false (the king-locating scan finds nothing) instead of
signaling an error. -/
theorem isKingInCheck_no_king (b : Board) (c : Color)
    (h : ∀ p : Pos, isValidPosition p = true → ∀ pc : Piece, b p = some pc →
      pc.type = PieceType.king → pc.color ≠ c) :
    isKingInCheck b c = false := by
  have hfind : findKingPos b c = none := by
    rw [findKingPos, List.find?_eq_none]
    intro p hp
    have hv : isValidPosition p = true := squaresRM_valid p hp
    cases hbp : b p with
    | none => simp
    | some pc =>
      by_cases ht : pc.type = PieceType.king
      · have hcol := h p hv pc hbp ht
        simp [ht, hcol]
      · simp [ht]
  rw [isKingInCheck, hfind]

/-- Witness for C9 at a concrete input: the empty board has no white
king, and `isKingInCheck` returns false on it. -/
theorem isKingInCheck_no_king_witness : isKingInCheck emptyBoard Color.white = false :=
  isKingInCheck_no_king emptyBoard Color.white
    (fun _ _ pc hpc => by simp [emptyBoard] at hpc)

/-- The any-scan of the classifiers reports no legal move exactly when
the collected union of legal moves is empty. -/
theorem hasAnyLegalMove_eq_false_iff (b : Board) (c : Color) :
    hasAnyLegalMove b c = false ↔ allLegalMovesFor b c none fullCastlingRights = [] := by
  rw [hasAnyLegalMove, List.any_eq_false, allLegalMovesFor, List.flatMap_eq_nil_iff]
  constructor
  · intro h p hp
    have := h p hp
    cases hbp : b p with
    | none => simp
    | some pc =>
      simp only [hbp] at this ⊢
      by_cases hcol : pc.color = c
      · simp only [if_pos hcol] at this ⊢
        simpa [List.isEmpty_iff] using this
      · simp [hcol]
  · intro h p hp
    have := h p hp
    cases hbp : b p with
    | none => simp [hbp]
    | some pc =>
      simp only [hbp] at this ⊢
      by_cases hcol : pc.color = c
      · simp only [if_pos hcol] at this ⊢
        simp [this]
      · simp [hcol]

/-- C1: `isCheckmate` holds iff the king is in check and the union over
every piece of the color of the legal filtrations of its pseudo-legal
moves (generated, as in the source, with the default en-passant and
castling-rights arguments) is empty. -/
theorem isCheckmate_iff (b : Board) (c : Color) :
    isCheckmate b c = true ↔
      isKingInCheck b c = true ∧ allLegalMovesFor b c none fullCastlingRights = [] := by
  rw [isCheckmate, Bool.and_eq_true, Bool.not_eq_true']
  exact and_congr_right fun _ => hasAnyLegalMove_eq_false_iff b c

set_option maxRecDepth 8000

/-- C3 (amended): the terminal overrides of `evaluateBoard` are checked
in source order — white checkmated gives +10000; black checkmated with
white not checkmated gives -10000; either side stalemated with neither
side checkmated gives 0 — and in each case the returned value is exactly
the constant, with no material, positional, king-safety or mobility
contribution. -/
theorem evaluateBoard_terminal (b : Board) :
    (isCheckmate b Color.white = true → evaluateBoard b = 10000) ∧
    (isCheckmate b Color.white = false → isCheckmate b Color.black = true →
      evaluateBoard b = -10000) ∧
    (isCheckmate b Color.white = false → isCheckmate b Color.black = false →
      (isStalemate b Color.white = true ∨ isStalemate b Color.black = true) →
      evaluateBoard b = 0) := by
  refine ⟨fun h1 => ?_, fun h1 h2 => ?_, fun h1 h2 h3 => ?_⟩
  · simp [evaluateBoard, h1]
  · simp [evaluateBoard, h1, h2]
  · rcases h3 with h3 | h3 <;> simp [evaluateBoard, h1, h2, h3]

/-- Counterexample to C3 as stated: on `dblMateBoard` black is
checkmated, yet `evaluateBoard` returns +10000 (white is also
checkmated and that override is checked first), not -10000. -/
theorem evaluateBoard_double_mate :
    isCheckmate dblMateBoard Color.black = true ∧
      isCheckmate dblMateBoard Color.white = true ∧
      evaluateBoard dblMateBoard = 10000 ∧ evaluateBoard dblMateBoard ≠ -10000 := by
  decide

/-- Witness for the amended C3 at a concrete input: the empty board is a
(white) stalemate with neither side checkmated, and `evaluateBoard`
returns 0. -/
theorem evaluateBoard_terminal_witness :
    isStalemate emptyBoard Color.white = true ∧ evaluateBoard emptyBoard = 0 :=
  ⟨by decide,
    (evaluateBoard_terminal emptyBoard).2.2 (by decide) (by decide) (Or.inl (by decide))⟩

/-- C4: the selection of the endgame king table is dead code — on
`kingsOnlyBoard` the endgame predicate holds, yet `evaluatePositions`
returns the standard-king-table score -20, while scoring the kings with
the endgame table (as the claim and the source's own comments describe,
`evaluatePositionsSpec`) gives 90. -/
theorem evaluatePositions_ignores_endgame_table :
    isEndgamePhase kingsOnlyBoard = true ∧
      evaluatePositions kingsOnlyBoard = -20 ∧
      evaluatePositionsSpec kingsOnlyBoard = 90 ∧
      evaluatePositions kingsOnlyBoard ≠ evaluatePositionsSpec kingsOnlyBoard := by
  decide

/-- Every promotion-enumeration move lands on the enumerated target. -/
theorem addPawnPromotionMoves_toPos (fromP toP : Pos) (pc : Piece) (cap : Option Piece)
    (m : Move) (hm : m ∈ addPawnPromotionMoves fromP toP pc cap) : m.toPos = toP := by
  simp only [addPawnPromotionMoves, List.mem_map] at hm
  obtain ⟨pt, -, rfl⟩ := hm
  rfl

/-- Filtering the promotion enumeration by its own target keeps it. -/
theorem addPawnPromotionMoves_filter (fromP toP : Pos) (pc : Piece) (cap : Option Piece) :
    (addPawnPromotionMoves fromP toP pc cap).filter (fun m => m.toPos = toP) =
      addPawnPromotionMoves fromP toP pc cap := by
  rw [List.filter_eq_self]
  intro m hm
  simp [addPawnPromotionMoves_toPos fromP toP pc cap m hm]

/-- Every forward pawn move keeps the pawn's column. -/
theorem pawnForwardMoves_toPos_col (b : Board) (p : Pos) (pc : Piece) (m : Move)
    (hm : m ∈ pawnForwardMoves b p pc) : m.toPos.col = p.col := by
  simp only [pawnForwardMoves] at hm
  split at hm
  · rcases List.mem_append.mp hm with hm1 | hm2
    · split at hm1
      · rw [addPawnPromotionMoves_toPos _ _ _ _ _ hm1]
      · rcases List.mem_singleton.mp hm1 with rfl
        rfl
    · split at hm2
      · split at hm2
        · rcases List.mem_singleton.mp hm2 with rfl
          rfl
        · simp at hm2
      · simp at hm2
  · simp at hm

/-- Every capture-loop move for a diagonal target lands on that target. -/
theorem pawnCaptureAt_toPos (b : Board) (p : Pos) (pc : Piece) (ep : Option Pos)
    (cm : Pos) (m : Move) (hm : m ∈ pawnCaptureAt b p pc ep cm) : m.toPos = cm := by
  simp only [pawnCaptureAt] at hm
  split at hm
  · rcases List.mem_append.mp hm with hm1 | hm2
    · split at hm1
      · split at hm1
        · split at hm1
          · exact addPawnPromotionMoves_toPos _ _ _ _ _ hm1
          · rcases List.mem_singleton.mp hm1 with rfl
            rfl
        · simp at hm1
      · simp at hm1
    · split at hm2
      · split at hm2
        · split at hm2
          · split at hm2
            · rcases List.mem_singleton.mp hm2 with rfl
              rfl
            · simp at hm2
          · simp at hm2
        · simp at hm2
      · simp at hm2
  · simp at hm

/-- The capture loop at a valid promoting capture square whose target is
occupied by an enemy piece and is not the en-passant target produces
exactly the promotion enumeration. -/
theorem pawnCaptureAt_promoting (b : Board) (p : Pos) (pc : Piece) (ep : Option Pos)
    (d : Pos) (hval : isValidPosition d = true) (tp : Piece) (htp : b d = some tp)
    (hcolne : tp.color ≠ pc.color)
    (hprom : (pc.color = Color.white ∧ d.row = 0) ∨ (pc.color = Color.black ∧ d.row = 7))
    (hep : ep ≠ some d) :
    pawnCaptureAt b p pc ep d = addPawnPromotionMoves p d pc (some tp) := by
  simp only [pawnCaptureAt, hval, if_true, htp]
  rw [if_pos hcolne, if_pos hprom]
  cases hept : ep with
  | none => simp
  | some t =>
    have hne : ¬(d.row = t.row ∧ d.col = t.col) := by
      rintro ⟨h1, h2⟩
      apply hep
      rw [hept]
      cases d
      cases t
      simp_all
    simp [hne]

/-- C7 (amended): a pawn's forward move or diagonal capture landing on
the farthest rank, provided that square is not the current en-passant
target, contributes exactly the four promotion moves (queen, rook,
bishop, knight, each carrying its promotion piece type) to
`getPossibleMoves` for that destination. -/
theorem getPossibleMoves_promotion (b : Board) (p : Pos) (pc : Piece) (ep : Option Pos)
    (cr : CastlingRights) (d : Pos)
    (hpc : b p = some pc) (hty : pc.type = PieceType.pawn)
    (hep : ep ≠ some d)
    (hrow : (pc.color = Color.white ∧ d.row = 0) ∨ (pc.color = Color.black ∧ d.row = 7))
    (hcase :
      (d = ⟨p.row + pawnDir pc.color, p.col⟩ ∧ isValidPosition d = true ∧ b d = none) ∨
      ((d = ⟨p.row + pawnDir pc.color, p.col - 1⟩ ∨
          d = ⟨p.row + pawnDir pc.color, p.col + 1⟩) ∧
        isValidPosition d = true ∧ ∃ tp : Piece, b d = some tp ∧ tp.color ≠ pc.color)) :
    (getPossibleMoves b p ep cr).filter (fun m => m.toPos = d) =
      addPawnPromotionMoves p d pc (b d) := by
  simp only [getPossibleMoves, hpc, hty]
  rw [getPawnMoves, List.filter_append]
  rcases hcase with ⟨hd, hval, hemp⟩ | ⟨hd, hval, tp, htp, hcolne⟩
  · have hcap : (pawnCaptureMoves b p pc ep).filter (fun m => m.toPos = d) = [] := by
      rw [List.filter_eq_nil_iff]
      intro m hm
      simp only [decide_eq_true_eq]
      intro hmd
      simp only [pawnCaptureMoves, List.mem_flatMap, List.mem_cons,
        List.not_mem_nil, or_false] at hm
      obtain ⟨cm, hcm, hmm⟩ := hm
      have h1 := pawnCaptureAt_toPos b p pc ep cm m hmm
      have hcmd : cm = d := by rw [← h1, hmd]
      rcases hcm with rfl | rfl <;>
      · rw [hd] at hcmd
        have := congrArg Pos.col hcmd
        simp only at this
        omega
    rw [hcap, List.append_nil]
    simp only [pawnForwardMoves]
    have hval1 : isValidPosition ⟨p.row + pawnDir pc.color, p.col⟩ = true := by
      rw [← hd]; exact hval
    have hb1 : b ⟨p.row + pawnDir pc.color, p.col⟩ = none := by
      rw [← hd]; exact hemp
    simp only [hval1, hb1, Option.isNone_none, Bool.and_self, if_true]
    have hprom1 : (pc.color = Color.white ∧ (⟨p.row + pawnDir pc.color, p.col⟩ : Pos).row = 0) ∨
        (pc.color = Color.black ∧ (⟨p.row + pawnDir pc.color, p.col⟩ : Pos).row = 7) := by
      rw [← hd]; exact hrow
    rw [if_pos hprom1]
    have hsec : ¬((pc.color = Color.white ∧ p.row = 6) ∨
        (pc.color = Color.black ∧ p.row = 1)) := by
      rcases hrow with ⟨hw, hr⟩ | ⟨hw, hr⟩
      · have hp : p.row = 1 := by
          rw [hd] at hr
          simp [pawnDir, hw] at hr
          omega
        rintro (⟨-, h6⟩ | ⟨hc2, -⟩)
        · omega
        · rw [hw] at hc2
          exact absurd hc2 (by decide)
      · have hp : p.row = 6 := by
          rw [hd] at hr
          simp [pawnDir, hw] at hr
          omega
        rintro (⟨hc2, -⟩ | ⟨-, h6⟩)
        · rw [hw] at hc2
          exact absurd hc2 (by decide)
        · omega
    rw [if_neg hsec, List.append_nil, ← hd, hemp]
    exact addPawnPromotionMoves_filter p d pc none
  · have hfwd : (pawnForwardMoves b p pc).filter (fun m => m.toPos = d) = [] := by
      rw [List.filter_eq_nil_iff]
      intro m hm
      simp only [decide_eq_true_eq]
      intro hmd
      have hcol := pawnForwardMoves_toPos_col b p pc m hm
      rw [hmd] at hcol
      rcases hd with rfl | rfl <;> (simp only at hcol; omega)
    rw [hfwd, List.nil_append]
    simp only [pawnCaptureMoves, List.flatMap_cons, List.flatMap_nil, List.append_nil,
      List.filter_append]
    rcases hd with hdl | hdr
    · have hL : pawnCaptureAt b p pc ep ⟨p.row + pawnDir pc.color, p.col - 1⟩ =
          addPawnPromotionMoves p d pc (some tp) := by
        rw [← hdl]
        exact pawnCaptureAt_promoting b p pc ep d hval tp htp hcolne hrow hep
      have hR : (pawnCaptureAt b p pc ep ⟨p.row + pawnDir pc.color, p.col + 1⟩).filter
          (fun m => m.toPos = d) = [] := by
        rw [List.filter_eq_nil_iff]
        intro m hm
        simp only [decide_eq_true_eq]
        intro hmd
        have h1 := pawnCaptureAt_toPos b p pc ep _ m hm
        rw [hmd] at h1
        rw [hdl] at h1
        have := congrArg Pos.col h1
        simp only at this
        omega
      rw [hL, hR, List.append_nil, addPawnPromotionMoves_filter, htp]
    · have hR : pawnCaptureAt b p pc ep ⟨p.row + pawnDir pc.color, p.col + 1⟩ =
          addPawnPromotionMoves p d pc (some tp) := by
        rw [← hdr]
        exact pawnCaptureAt_promoting b p pc ep d hval tp htp hcolne hrow hep
      have hL : (pawnCaptureAt b p pc ep ⟨p.row + pawnDir pc.color, p.col - 1⟩).filter
          (fun m => m.toPos = d) = [] := by
        rw [List.filter_eq_nil_iff]
        intro m hm
        simp only [decide_eq_true_eq]
        intro hmd
        have h1 := pawnCaptureAt_toPos b p pc ep _ m hm
        rw [hmd] at h1
        rw [hdr] at h1
        have := congrArg Pos.col h1
        simp only at this
        omega
      rw [hL, hR, List.nil_append, addPawnPromotionMoves_filter, htp]

/-- Counterexample to C7 as stated: on `promoEpBoard`, with en-passant
target (0,3), the white pawn at (1,2) has a diagonal capture landing on
the farthest rank at (0,3) (occupied by an enemy rook), yet
`getPossibleMoves` generates five moves for that destination — the four
promotion captures plus an en-passant move — not exactly four. -/
theorem getPossibleMoves_promotion_cex :
    promoEpBoard ⟨1, 2⟩ = some ⟨PieceType.pawn, Color.white, true⟩ ∧
      promoEpBoard ⟨0, 3⟩ = some ⟨PieceType.rook, Color.black, true⟩ ∧
      ((getPossibleMoves promoEpBoard ⟨1, 2⟩ (some ⟨0, 3⟩) fullCastlingRights).filter
          (fun m => m.toPos = (⟨0, 3⟩ : Pos))).length = 5 := by
  decide

/-- Witness for the amended C7 at a concrete input: with no en-passant
target, the same pawn's forward move to (0,2) yields exactly the four
promotion moves. -/
theorem getPossibleMoves_promotion_witness :
    (getPossibleMoves promoEpBoard ⟨1, 2⟩ none fullCastlingRights).filter
        (fun m => m.toPos = (⟨0, 2⟩ : Pos)) =
      addPawnPromotionMoves ⟨1, 2⟩ ⟨0, 2⟩ ⟨PieceType.pawn, Color.white, true⟩
        (promoEpBoard ⟨0, 2⟩) :=
  getPossibleMoves_promotion promoEpBoard ⟨1, 2⟩ ⟨PieceType.pawn, Color.white, true⟩
    none fullCastlingRights ⟨0, 2⟩ (by decide) rfl (by decide) (Or.inl ⟨rfl, rfl⟩)
    (Or.inl ⟨by decide, by decide, by decide⟩)

/-- A functional-update step whose written value is empty or a piece
with `hasMoved` true maps an all-moved-or-untouched board to an
all-moved-or-untouched board. -/
theorem set_pres (b c : Board) (q : Pos) (v : Option Piece) (p : Pos)
    (hv : (v.all fun pc => pc.hasMoved) = true)
    (hc : ((c p).all fun pc => pc.hasMoved) = true ∨ c p = b p) :
    (((c.set q v) p).all fun pc => pc.hasMoved) = true ∨ (c.set q v) p = b p := by
  by_cases hpq : p = q
  · left
    simp [Board.set, hpq, hv]
  · simpa [Board.set, hpq] using hc

/-- A functional-update step whose written value is empty or a piece
with `hasMoved` true preserves the all-moved property of a cell. -/
theorem set_all (c : Board) (q : Pos) (v : Option Piece) (p : Pos)
    (hv : (v.all fun pc => pc.hasMoved) = true)
    (hc : ((c p).all fun pc => pc.hasMoved) = true) :
    (((c.set q v) p).all fun pc => pc.hasMoved) = true := by
  by_cases hpq : p = q <;> simp [Board.set, hpq, hv, hc]

/-- At the written cell itself, the all-moved property holds whenever
the written value satisfies it. -/
theorem set_all_self (c : Board) (q : Pos) (v : Option Piece)
    (hv : (v.all fun pc => pc.hasMoved) = true) :
    (((c.set q v) q).all fun pc => pc.hasMoved) = true := by
  simp [Board.set, hv]

/-- C8: after `applyMove`, the cell at the move's destination holds no
piece with `hasMoved` false (the destination write — and the relocated
rook's write on a castling move — always forces `hasMoved` true), and
every cell of the resulting board either holds a piece with `hasMoved`
true or is exactly the untouched cell of the original board: `applyMove`
never sets a piece's `hasMoved` from true back to false. -/
theorem applyMove_hasMoved (b : Board) (m : Move) :
    (((applyMove b m) m.toPos).all fun pc => pc.hasMoved) = true ∧
      ∀ p : Pos, (((applyMove b m) p).all fun pc => pc.hasMoved) = true ∨
        (applyMove b m) p = b p := by
  constructor
  · cases hmt : m.type
    case castleKingside =>
      simp only [applyMove, hmt, reduceCtorEq, or_self, or_false, false_or, or_true, true_or, if_true, if_false, ite_true, ite_false, reduceIte]
      cases hcf : m.castlingRookFrom with
      | none =>
        repeat'
          first
          | exact set_all_self _ _ _ rfl
          | refine set_all _ _ _ _ rfl ?_
          | dsimp only
      | some rf =>
        cases hct : m.castlingRookTo with
        | none =>
          repeat'
            first
            | exact set_all_self _ _ _ rfl
            | refine set_all _ _ _ _ rfl ?_
            | dsimp only
        | some rt =>
          dsimp only
          cases hrk : (Board.set (Board.set b m.fromPos none) m.toPos
              (some { m.piece with hasMoved := true })) rf <;>
            repeat'
              first
              | exact set_all_self _ _ _ rfl
              | refine set_all _ _ _ _ rfl ?_
              | dsimp only
    case castleQueenside =>
      simp only [applyMove, hmt, reduceCtorEq, or_self, or_false, false_or, or_true, true_or, if_true, if_false, ite_true, ite_false, reduceIte]
      cases hcf : m.castlingRookFrom with
      | none =>
        repeat'
          first
          | exact set_all_self _ _ _ rfl
          | refine set_all _ _ _ _ rfl ?_
          | dsimp only
      | some rf =>
        cases hct : m.castlingRookTo with
        | none =>
          repeat'
            first
            | exact set_all_self _ _ _ rfl
            | refine set_all _ _ _ _ rfl ?_
            | dsimp only
        | some rt =>
          dsimp only
          cases hrk : (Board.set (Board.set b m.fromPos none) m.toPos
              (some { m.piece with hasMoved := true })) rf <;>
            repeat'
              first
              | exact set_all_self _ _ _ rfl
              | refine set_all _ _ _ _ rfl ?_
              | dsimp only
    all_goals
      simp only [applyMove, hmt, reduceCtorEq, or_self, or_false, false_or, or_true, true_or, if_true, if_false, ite_true, ite_false, reduceIte]
    all_goals
      try (cases m.enPassantCapturePos <;> dsimp only)
    all_goals
      repeat'
        first
        | exact set_all_self _ _ _ rfl
        | refine set_all _ _ _ _ rfl ?_
        | dsimp only
  · intro p
    cases hmt : m.type
    case castleKingside =>
      simp only [applyMove, hmt, reduceCtorEq, or_self, or_false, false_or, or_true, true_or, if_true, if_false, ite_true, ite_false, reduceIte]
      cases hcf : m.castlingRookFrom with
      | none =>
        repeat'
          first
          | exact Or.inr rfl
          | refine set_pres b _ _ _ _ rfl ?_
          | dsimp only
      | some rf =>
        cases hct : m.castlingRookTo with
        | none =>
          repeat'
            first
            | exact Or.inr rfl
            | refine set_pres b _ _ _ _ rfl ?_
            | dsimp only
        | some rt =>
          dsimp only
          cases hrk : (Board.set (Board.set b m.fromPos none) m.toPos
              (some { m.piece with hasMoved := true })) rf <;>
            repeat'
              first
              | exact Or.inr rfl
              | refine set_pres b _ _ _ _ rfl ?_
              | dsimp only
    case castleQueenside =>
      simp only [applyMove, hmt, reduceCtorEq, or_self, or_false, false_or, or_true, true_or, if_true, if_false, ite_true, ite_false, reduceIte]
      cases hcf : m.castlingRookFrom with
      | none =>
        repeat'
          first
          | exact Or.inr rfl
          | refine set_pres b _ _ _ _ rfl ?_
          | dsimp only
      | some rf =>
        cases hct : m.castlingRookTo with
        | none =>
          repeat'
            first
            | exact Or.inr rfl
            | refine set_pres b _ _ _ _ rfl ?_
            | dsimp only
        | some rt =>
          dsimp only
          cases hrk : (Board.set (Board.set b m.fromPos none) m.toPos
              (some { m.piece with hasMoved := true })) rf <;>
            repeat'
              first
              | exact Or.inr rfl
              | refine set_pres b _ _ _ _ rfl ?_
              | dsimp only
    all_goals
      simp only [applyMove, hmt, reduceCtorEq, or_self, or_false, false_or, or_true, true_or, if_true, if_false, ite_true, ite_false, reduceIte]
    all_goals
      try (cases m.enPassantCapturePos <;> dsimp only)
    all_goals
      repeat'
        first
        | exact Or.inr rfl
        | refine set_pres b _ _ _ _ rfl ?_
        | dsimp only

/-- A degenerate normal move whose origin and destination coincide. -/
def selfMove : Move :=
  { fromPos := ⟨0, 0⟩, toPos := ⟨0, 0⟩, type := MoveType.normal,
    piece := ⟨PieceType.knight, Color.white, false⟩ }

/-- Counterexample to C10 as stated: for the normal move `selfMove` with
`fromPos = toPos`, `applyMove` does not leave the origin cell empty —
the destination write overwrites the origin clear, so the cell holds the
moved piece. -/
theorem applyMove_frame_cex :
    selfMove.type = MoveType.normal ∧
      applyMove emptyBoard selfMove selfMove.fromPos ≠ none := by
  decide

/-- C10 (amended): for a normal or capture move whose origin and
destination differ, `applyMove` changes only the origin cell (set to
empty) and the destination cell (set to the move's piece with `hasMoved`
true); every other cell is unchanged. -/
theorem applyMove_frame (b : Board) (m : Move)
    (hty : m.type = MoveType.normal ∨ m.type = MoveType.capture)
    (hne : m.fromPos ≠ m.toPos) :
    applyMove b m m.fromPos = none ∧
      applyMove b m m.toPos = some { m.piece with hasMoved := true } ∧
      ∀ p : Pos, p ≠ m.fromPos → p ≠ m.toPos → applyMove b m p = b p := by
  have hnp : ¬(m.type = MoveType.promotion ∨ m.type = MoveType.captureAndPromotion) := by
    rcases hty with h | h <;> simp [h]
  have hnc : ¬(m.type = MoveType.castleKingside ∨ m.type = MoveType.castleQueenside) := by
    rcases hty with h | h <;> simp [h]
  have hnep : ¬(m.type = MoveType.enPassant) := by
    rcases hty with h | h <;> simp [h]
  simp only [applyMove, hnp, hnc, hnep, if_false, ite_false]
  refine ⟨?_, ?_, ?_⟩
  · simp [Board.set, hne]
  · simp [Board.set]
  · intro p hp1 hp2
    simp [Board.set, hp1, hp2]

/-- A concrete normal pawn push used to exercise the frame theorem. -/
def pawnPushMove : Move :=
  { fromPos := ⟨6, 4⟩, toPos := ⟨5, 4⟩, type := MoveType.normal,
    piece := ⟨PieceType.pawn, Color.white, false⟩ }

/-- Witness for the amended C10 at a concrete input: applying the pawn
push leaves the unrelated cell (7,7) untouched. -/
theorem applyMove_frame_witness :
    applyMove emptyBoard pawnPushMove ⟨7, 7⟩ = emptyBoard ⟨7, 7⟩ :=
  (applyMove_frame emptyBoard pawnPushMove (Or.inl rfl) (by decide)).2.2 ⟨7, 7⟩
    (by decide) (by decide)

/-- The maximum of two finite extended integers is finite. -/
theorem XInt.maxX_fin (a c : Int) : ∃ k : Int, XInt.maxX (XInt.fin a) (XInt.fin c) = XInt.fin k := by
  unfold XInt.maxX
  split
  · exact ⟨c, rfl⟩
  · exact ⟨a, rfl⟩

/-- The minimum of two finite extended integers is finite. -/
theorem XInt.minX_fin (a c : Int) : ∃ k : Int, XInt.minX (XInt.fin a) (XInt.fin c) = XInt.fin k := by
  unfold XInt.minX
  split
  · exact ⟨c, rfl⟩
  · exact ⟨a, rfl⟩

/-- The maximizing loop started from a finite accumulator stays finite
when every child evaluation is finite. -/
theorem abMaxGo_fin_acc (eval : Move → XInt → XInt → XInt)
    (heval : ∀ (m : Move) (a bt : XInt), ∃ n : Int, eval m a bt = XInt.fin n) :
    ∀ (ms : List Move) (alpha beta : XInt) (n0 : Int),
      ∃ n : Int, abMaxGo eval ms alpha beta (XInt.fin n0) = XInt.fin n := by
  intro ms
  induction ms with
  | nil => exact fun alpha beta n0 => ⟨n0, rfl⟩
  | cons m rest ih =>
    intro alpha beta n0
    obtain ⟨e, he⟩ := heval m alpha beta
    obtain ⟨k, hk⟩ := XInt.maxX_fin n0 e
    simp only [abMaxGo, he, hk]
    split
    · exact ⟨k, rfl⟩
    · exact ih _ beta k

/-- The maximizing loop over a nonempty move list, started (as in the
source) from `-Infinity`, returns a finite value when every child
evaluation is finite. -/
theorem abMaxGo_fin_start (eval : Move → XInt → XInt → XInt)
    (heval : ∀ (m : Move) (a bt : XInt), ∃ n : Int, eval m a bt = XInt.fin n)
    (m : Move) (rest : List Move) (alpha beta : XInt) :
    ∃ n : Int, abMaxGo eval (m :: rest) alpha beta XInt.negInf = XInt.fin n := by
  obtain ⟨e, he⟩ := heval m alpha beta
  simp only [abMaxGo, he]
  have hmax : XInt.maxX XInt.negInf (XInt.fin e) = XInt.fin e := rfl
  rw [hmax]
  split
  · exact ⟨e, rfl⟩
  · exact abMaxGo_fin_acc eval heval rest _ beta e

/-- The minimizing loop started from a finite accumulator stays finite
when every child evaluation is finite. -/
theorem abMinGo_fin_acc (eval : Move → XInt → XInt → XInt)
    (heval : ∀ (m : Move) (a bt : XInt), ∃ n : Int, eval m a bt = XInt.fin n) :
    ∀ (ms : List Move) (alpha beta : XInt) (n0 : Int),
      ∃ n : Int, abMinGo eval ms alpha beta (XInt.fin n0) = XInt.fin n := by
  intro ms
  induction ms with
  | nil => exact fun alpha beta n0 => ⟨n0, rfl⟩
  | cons m rest ih =>
    intro alpha beta n0
    obtain ⟨e, he⟩ := heval m alpha beta
    obtain ⟨k, hk⟩ := XInt.minX_fin n0 e
    simp only [abMinGo, he, hk]
    split
    · exact ⟨k, rfl⟩
    · exact ih alpha _ k

/-- The minimizing loop over a nonempty move list, started from
`+Infinity`, returns a finite value when every child evaluation is
finite. -/
theorem abMinGo_fin_start (eval : Move → XInt → XInt → XInt)
    (heval : ∀ (m : Move) (a bt : XInt), ∃ n : Int, eval m a bt = XInt.fin n)
    (m : Move) (rest : List Move) (alpha beta : XInt) :
    ∃ n : Int, abMinGo eval (m :: rest) alpha beta XInt.posInf = XInt.fin n := by
  obtain ⟨e, he⟩ := heval m alpha beta
  simp only [abMinGo, he]
  have hmin : XInt.minX XInt.posInf (XInt.fin e) = XInt.fin e := rfl
  rw [hmin]
  split
  · exact ⟨e, rfl⟩
  · exact abMinGo_fin_acc eval heval rest alpha _ e

/-- `minimax` always returns a finite value: its base cases return the
static evaluation and its loops fold finite child values over a finite
seed. -/
theorem minimax_fin :
    ∀ (depth : Nat) (b : Board) (alpha beta : XInt) (isMax : Bool) (ep : Option Pos)
      (cr : CastlingRights),
      ∃ n : Int, minimax depth b alpha beta isMax ep cr = XInt.fin n := by
  intro depth
  induction depth with
  | zero => exact fun b alpha beta isMax ep cr => ⟨evaluateBoard b, rfl⟩
  | succ d ih =>
    intro b alpha beta isMax ep cr
    simp only [minimax]
    split
    · exact ⟨evaluateBoard b, rfl⟩
    · cases hmv : allLegalMovesFor b (if isMax then Color.black else Color.white) ep cr with
      | nil => simp [hmv]
      | cons m rest =>
        cases isMax with
        | true =>
          exact abMaxGo_fin_start _ (fun m2 a2 b2 => ih (applyMove b m2) a2 b2 false ep cr)
            m rest alpha beta
        | false =>
          exact abMinGo_fin_start _ (fun m2 a2 b2 => ih (applyMove b m2) a2 b2 true ep cr)
            m rest alpha beta

/-- C5: `minimax` returns the static evaluation directly exactly when
the depth is zero, or the position is checkmate or stalemate for either
color, or the side to move (black when maximizing) has zero legal moves;
in every other case it runs the alpha-beta fold over the legal moves of
the side to move, recursing at depth - 1. -/
theorem minimax_terminal (b : Board) (depth : Nat) (alpha beta : XInt) (isMax : Bool)
    (ep : Option Pos) (cr : CastlingRights) :
    ((depth = 0 ∨ isCheckmate b Color.white = true ∨ isCheckmate b Color.black = true ∨
        isStalemate b Color.white = true ∨ isStalemate b Color.black = true ∨
        allLegalMovesFor b (if isMax then Color.black else Color.white) ep cr = []) →
      minimax depth b alpha beta isMax ep cr = XInt.fin (evaluateBoard b)) ∧
    (¬(depth = 0 ∨ isCheckmate b Color.white = true ∨ isCheckmate b Color.black = true ∨
        isStalemate b Color.white = true ∨ isStalemate b Color.black = true ∨
        allLegalMovesFor b (if isMax then Color.black else Color.white) ep cr = []) →
      minimax depth b alpha beta isMax ep cr =
        (if isMax then
          abMaxGo (fun m a bt => minimax (depth - 1) (applyMove b m) a bt false ep cr)
            (allLegalMovesFor b (if isMax then Color.black else Color.white) ep cr)
            alpha beta XInt.negInf
        else
          abMinGo (fun m a bt => minimax (depth - 1) (applyMove b m) a bt true ep cr)
            (allLegalMovesFor b (if isMax then Color.black else Color.white) ep cr)
            alpha beta XInt.posInf)) := by
  cases depth with
  | zero =>
    exact ⟨fun _ => rfl, fun h => absurd (Or.inl rfl) h⟩
  | succ d =>
    constructor
    · intro h
      rcases h with h0 | hcm | hcm | hcm | hcm | hmv
      · exact absurd h0 (Nat.succ_ne_zero d)
      · simp [minimax, hcm]
      · simp [minimax, hcm]
      · simp [minimax, hcm]
      · simp [minimax, hcm]
      · by_cases hterm : (isCheckmate b Color.white || isCheckmate b Color.black ||
            isStalemate b Color.white || isStalemate b Color.black) = true
        · simp [minimax, hterm]
        · simp [minimax, hterm, hmv]
    · intro h
      simp only [not_or] at h
      obtain ⟨-, hw, hb2, hsw, hsb, hmv⟩ := h
      rw [Bool.not_eq_true] at hw hb2 hsw hsb
      cases hms : allLegalMovesFor b (if isMax then Color.black else Color.white) ep cr with
      | nil => exact absurd hms hmv
      | cons m rest =>
        simp only [minimax, hw, hb2, hsw, hsb, hms, Bool.or_self, Bool.or_false,
          Bool.false_or, if_false, ite_false, Nat.succ_sub_one, List.isEmpty_cons]
        cases isMax <;> rfl

/-- Witness for C5 at a concrete input: at depth 0 the search returns
the static evaluation of the empty board directly. -/
theorem minimax_terminal_witness :
    minimax 0 emptyBoard XInt.negInf XInt.posInf true none fullCastlingRights =
      XInt.fin (evaluateBoard emptyBoard) :=
  (minimax_terminal emptyBoard 0 XInt.negInf XInt.posInf true none
    fullCastlingRights).1 (Or.inl rfl)

/-- Any move returned by the best-move loop is the incoming best move or
one of the scanned moves. -/
theorem rootGo_mem (score : Move → XInt) (isBlack : Bool) :
    ∀ (ms : List Move) (s : XInt) (best : Option Move) (y : Move),
      rootGo score isBlack ms s best = some y → best = some y ∨ y ∈ ms := by
  intro ms
  induction ms with
  | nil => exact fun s best y h => Or.inl h
  | cons m rest ih =>
    intro s best y h
    simp only [rootGo] at h
    cases isBlack with
    | true =>
      rw [if_pos rfl] at h
      by_cases hlt : XInt.blt s (score m) = true
      · rw [if_pos hlt] at h
        rcases ih _ _ y h with hbest | hmem
        · rcases Option.some.injEq .. ▸ hbest with rfl
          exact Or.inr (List.mem_cons_self _ _)
        · exact Or.inr (List.mem_cons_of_mem _ hmem)
      · rw [if_neg hlt] at h
        rcases ih _ _ y h with hbest | hmem
        · exact Or.inl hbest
        · exact Or.inr (List.mem_cons_of_mem _ hmem)
    | false =>
      rw [if_neg Bool.false_ne_true] at h
      by_cases hlt : XInt.blt (score m) s = true
      · rw [if_pos hlt] at h
        rcases ih _ _ y h with hbest | hmem
        · rcases Option.some.injEq .. ▸ hbest with rfl
          exact Or.inr (List.mem_cons_self _ _)
        · exact Or.inr (List.mem_cons_of_mem _ hmem)
      · rw [if_neg hlt] at h
        rcases ih _ _ y h with hbest | hmem
        · exact Or.inl hbest
        · exact Or.inr (List.mem_cons_of_mem _ hmem)

/-- Once a best move is held, the best-move loop returns some move. -/
theorem rootGo_isSome (score : Move → XInt) (isBlack : Bool) :
    ∀ (ms : List Move) (s : XInt) (x : Move),
      ∃ y : Move, rootGo score isBlack ms s (some x) = some y := by
  intro ms
  induction ms with
  | nil => exact fun s x => ⟨x, rfl⟩
  | cons m rest ih =>
    intro s x
    simp only [rootGo]
    cases isBlack with
    | true =>
      rw [if_pos rfl]
      by_cases hlt : XInt.blt s (score m) = true
      · rw [if_pos hlt]; exact ih _ m
      · rw [if_neg hlt]; exact ih _ x
    | false =>
      rw [if_neg Bool.false_ne_true]
      by_cases hlt : XInt.blt (score m) s = true
      · rw [if_pos hlt]; exact ih _ m
      · rw [if_neg hlt]; exact ih _ x

/-- C6: `findBestMove` returns no move exactly when the side to move has
no legal move on the board, and any move it returns is one of that
side's legal moves. -/
theorem findBestMove_spec (b : Board) (depth : Nat) (isBlack : Bool) (ep : Option Pos)
    (cr : CastlingRights) :
    (findBestMove b depth isBlack ep cr = none ↔
      allLegalMovesFor b (if isBlack then Color.black else Color.white) ep cr = []) ∧
    ∀ m : Move, findBestMove b depth isBlack ep cr = some m →
      m ∈ allLegalMovesFor b (if isBlack then Color.black else Color.white) ep cr := by
  cases hL : allLegalMovesFor b (if isBlack then Color.black else Color.white) ep cr with
  | nil =>
    constructor
    · simp [findBestMove, hL]
    · intro m hm
      rw [findBestMove] at hm
      simp [hL] at hm
  | cons m0 rest =>
    have hsome : ∃ y : Move,
        findBestMove b depth isBlack ep cr = some y ∧ y ∈ m0 :: rest := by
      rw [findBestMove]
      simp only [hL, List.isEmpty_cons, Bool.false_eq_true, if_false, ite_false]
      obtain ⟨e, he⟩ := minimax_fin (depth - 1) (applyMove b m0) XInt.negInf XInt.posInf
        (!isBlack) ep cr
      cases isBlack with
      | true =>
        simp only [rootGo, he, eq_self_iff_true, if_true]
        have hlt : XInt.blt XInt.negInf (XInt.fin e) = true := rfl
        rw [if_pos hlt]
        obtain ⟨y, hy⟩ := rootGo_isSome _ true rest (XInt.fin e) m0
        refine ⟨y, hy, ?_⟩
        rcases rootGo_mem _ true rest (XInt.fin e) (some m0) y hy with hb2 | hmem
        · rcases Option.some.injEq .. ▸ hb2 with rfl
          exact List.mem_cons_self _ _
        · exact List.mem_cons_of_mem _ hmem
      | false =>
        simp only [rootGo, he, Bool.false_eq_true, if_false]
        have hlt : XInt.blt (XInt.fin e) XInt.posInf = true := rfl
        rw [if_pos hlt]
        obtain ⟨y, hy⟩ := rootGo_isSome _ false rest (XInt.fin e) m0
        refine ⟨y, hy, ?_⟩
        rcases rootGo_mem _ false rest (XInt.fin e) (some m0) y hy with hb2 | hmem
        · rcases Option.some.injEq .. ▸ hb2 with rfl
          exact List.mem_cons_self _ _
        · exact List.mem_cons_of_mem _ hmem
    obtain ⟨y, hy, hymem⟩ := hsome
    constructor
    · constructor
      · intro hnone
        rw [hy] at hnone
        exact absurd hnone (Option.some_ne_none y)
      · intro hnil
        exact absurd (hL ▸ hnil) (List.cons_ne_nil m0 rest)
    · intro m hm
      rw [hy] at hm
      rcases Option.some.injEq .. ▸ hm with rfl
      exact hymem

/-- The first root move of the lone white king at (0,0): east to (0,1). -/
def loneKingMoveEast : Move :=
  { fromPos := ⟨0, 0⟩, toPos := ⟨0, 1⟩, type := MoveType.normal,
    piece := ⟨PieceType.king, Color.white, true⟩ }

/-- Witness for C6 at a concrete input: at depth 1 on the lone-king
board, `findBestMove` returns a move, and it is a legal move of white. -/
theorem findBestMove_spec_witness :
    loneKingMoveEast ∈ allLegalMovesFor loneKingBoard Color.white none fullCastlingRights :=
  (findBestMove_spec loneKingBoard 1 false none fullCastlingRights).2 loneKingMoveEast
    (by decide)
